import Mathlib

/-!
Verification of the hiperwalk coined quantum-walk core against its source.

The Python source is shallowly embedded: pure functions of
`hiperwalk/graph/cycle.py` and `hiperwalk/quantum_walk/coined.py` become Lean
functions over `ℕ`, `ℤ` and `ℚ`; the mutable walk configuration becomes an
explicit state record with setters returning new states (raised exceptions
become `Except.error`).  Sparse matrices built with one entry per row are
represented by their column lists, and dense semantics by functions
`ℕ → ℕ → ℚ`.

Members of the base classes `Graph` and `QuantumWalk` that the repository
snapshot does not contain (only `cycle.py` and `coined.py` are present) are
modelled from the specification and marked `Modelled from the spec:` in their
doc comments.
-/

namespace Hiperwalk

/-! ### Cycle graph (`hiperwalk/graph/cycle.py`) -/

namespace Cycle

/-- Embeds `Cycle.arc_label` (cycle.py lines 55-60): an arc with tail `v`
gets label `2v` when pointing rightwards (`head - tail == 1` or
`tail - head == num_vert - 1`) and `2v + 1` when pointing leftwards.
Python integer subtraction is modelled in `ℤ`. -/
def arc_label (num_vert tail head : ℕ) : ℕ :=
  if (head : ℤ) - (tail : ℤ) = 1 ∨ (tail : ℤ) - (head : ℤ) = (num_vert : ℤ) - 1
  then 2 * tail else 2 * tail + 1

/-- Embeds `Cycle.arc` (cycle.py lines 62-66): `tail = label // 2`,
`head = (tail + (-1)**(label % 2)) % num_vert`.  Python `%` on a positive
modulus is `Int.emod`. -/
def arc (num_vert label : ℕ) : ℕ × ℕ :=
  (label / 2,
   ((((label / 2 : ℕ) : ℤ) + (-1) ^ (label % 2)) % (num_vert : ℤ)).toNat)

/-- Embeds the arc-label branch of `Cycle.previous_arc` (cycle.py lines
100-104): `(arc - 2) % num_arcs` for even labels, `(arc + 2) % num_arcs` for
odd ones, with `num_arcs = 2 * num_vert`. -/
def previous_arc (num_vert label : ℕ) : ℕ :=
  let num_arcs : ℤ := 2 * (num_vert : ℤ)
  (if label % 2 = 0 then ((label : ℤ) - 2) % num_arcs
   else ((label : ℤ) + 2) % num_arcs).toNat

/-- Modelled from the spec: `Graph.neighbors` of the base class (file
`hiperwalk/graph/graph.py`, not under `src/`) returns the heads of the arcs
with tail `v` as the row of the canonical CSR adjacency matrix, hence in
ascending order; spec section 8 pins `neighbors(0) == [1, 9]` on the
10-cycle.  For the cycle built in `Cycle.__init__` the neighbors of `v` are
`(v+1) % n` and `(v-1) % n`, listed ascending. -/
def neighbors (num_vert v : ℕ) : List ℕ :=
  let a := (v + 1) % num_vert
  let b := (v + (num_vert - 1)) % num_vert
  if a ≤ b then [a, b] else [b, a]

/-- Number of arcs of the cycle: each of the `n` vertices has two outgoing
arcs (`number_of_arcs` of the base class, the count of nonzeros of the
adjacency matrix). -/
def number_of_arcs (num_vert : ℕ) : ℕ := 2 * num_vert

end Cycle

/-! ### Shift builders (`hiperwalk/quantum_walk/coined.py`) -/

/-- Embeds the column list `S_cols` of `Coined._set_flipflop_shift`
(coined.py lines 132-134): `[arc_label(j, i) for i in range(num_vert)
for j in neighbors(i)]`.  The sparse matrix built from it has
`indptr = arange(num_arcs + 1)`, i.e. row `r` has its single 1 in column
`S_cols[r]`. -/
def flipflopCols (num_vert : ℕ) : List ℕ :=
  (List.range num_vert).flatMap
    (fun i => (Cycle.neighbors num_vert i).map
      (fun j => Cycle.arc_label num_vert j i))

/-- Embeds the column list `S_cols` of `Coined._set_persistent_shift`
(coined.py line 179): `[previous_arc(i) for i in range(num_arcs)]`. -/
def persistentCols (num_vert : ℕ) : List ℕ :=
  (List.range (Cycle.number_of_arcs num_vert)).map
    (Cycle.previous_arc num_vert)

/-- Dense semantics of a csr matrix with one entry of value 1 per row,
row `r` having its entry in column `cols[r]` (the `csr_array((ones, S_cols,
arange(num_arcs+1)))` construction of `_set_flipflop_shift` and
`_set_persistent_shift`). -/
def colsMat (cols : List ℕ) : ℕ → ℕ → ℚ :=
  fun i j => if i < cols.length ∧ cols.getD i 0 = j then 1 else 0

/-- Dense matrix product of two `N × N` operators over the arc space. -/
def matMul (N : ℕ) (A B : ℕ → ℕ → ℚ) : ℕ → ℕ → ℚ :=
  fun i j => ∑ k ∈ Finset.range N, A i k * B k j

/-- The identity operator (dense semantics of `scipy.sparse.eye` /
`numpy.identity`). -/
def idMat : ℕ → ℕ → ℚ :=
  fun i j => if i = j then 1 else 0

/-- Applies an `N × N` operator to a state vector over the arc space. -/
def applyMat (N : ℕ) (A : ℕ → ℕ → ℚ) (x : ℕ → ℚ) : ℕ → ℚ :=
  fun i => ∑ k ∈ Finset.range N, A i k * x k

lemma colsMat_apply_eq_one {cols : List ℕ} {i j : ℕ} (hi : i < cols.length)
    (hj : cols.getD i 0 = j) : colsMat cols i j = 1 := by
  unfold colsMat
  rw [if_pos ⟨hi, hj⟩]

lemma colsMat_apply_eq_zero {cols : List ℕ} {i j : ℕ}
    (h : ¬ (i < cols.length ∧ cols.getD i 0 = j)) : colsMat cols i j = 0 := by
  simp only [colsMat, if_neg h]

lemma matMul_colsMat_left (N : ℕ) (cols : List ℕ) (B : ℕ → ℕ → ℚ) (i j : ℕ)
    (hi : i < cols.length) (hc : cols.getD i 0 < N) :
    matMul N (colsMat cols) B i j = B (cols.getD i 0) j := by
  unfold matMul
  rw [Finset.sum_eq_single (cols.getD i 0)]
  · rw [colsMat_apply_eq_one hi rfl, one_mul]
  · intro k _ hk
    rw [colsMat_apply_eq_zero (by tauto), zero_mul]
  · intro hmem
    exact absurd (Finset.mem_range.mpr hc) hmem

lemma applyMat_colsMat (N : ℕ) (cols : List ℕ) (x : ℕ → ℚ) (i : ℕ)
    (hlen : cols.length = N) (hin : ∀ r, r < N → cols.getD r 0 < N) :
    applyMat N (colsMat cols) x i = if i < N then x (cols.getD i 0) else 0 := by
  unfold applyMat
  by_cases hi : i < N
  · rw [if_pos hi, Finset.sum_eq_single (cols.getD i 0)]
    · rw [colsMat_apply_eq_one (hlen ▸ hi) rfl, one_mul]
    · intro k _ hk
      rw [colsMat_apply_eq_zero (by tauto), zero_mul]
    · intro hmem
      exact absurd (Finset.mem_range.mpr (hin i hi)) hmem
  · rw [if_neg hi]
    apply Finset.sum_eq_zero
    intro k _
    rw [colsMat_apply_eq_zero, zero_mul]
    rw [hlen]
    tauto

lemma applyMat_congr (N : ℕ) {A B : ℕ → ℕ → ℚ} (x : ℕ → ℚ) (i : ℕ)
    (h : ∀ k, k < N → A i k = B i k) :
    applyMat N A x i = applyMat N B x i := by
  unfold applyMat
  exact Finset.sum_congr rfl (fun k hk => by
    rw [h k (Finset.mem_range.mp hk)])

/-! ### Claim C1: flip-flop shift entries on the Cycle

The claim states that the built matrix satisfies
`S[arc_label(v,u)] = arc_label(u,v)` for every graph honouring the adapter
contract, including `Cycle`.  `_set_flipflop_shift` enumerates the rows in
neighbor order (`for i in range(num_vert) for j in neighbors(i)`), which
coincides with `arc_label(i, j)` only for the base `Graph` labeling: the
`Cycle` labeling (rightward `2v`, leftward `2v+1`) orders the two arcs of an
interior vertex the other way round, so on the cycle with 3 vertices the row
`arc_label(1,0) = 3` carries its 1 in column `5 = arc_label(2,1)` instead of
column `0 = arc_label(0,1)`. -/

/-- Claim C1 (code divergence at the failing input): on `Cycle(3)`, the row
of the built flip-flop shift indexed by `arc_label(1,0) = 3` has a 0 in
column `arc_label(0,1) = 0` — where the claim requires its single 1 — and
its actual 1 sits in column `5 = arc_label(2,1)`. -/
theorem claim_C1_flipflop_cycle_divergence :
    colsMat (flipflopCols 3) (Cycle.arc_label 3 1 0) (Cycle.arc_label 3 0 1) = 0 ∧
    colsMat (flipflopCols 3) (Cycle.arc_label 3 1 0) (Cycle.arc_label 3 2 1) = 1 := by
  constructor
  · exact colsMat_apply_eq_zero (by decide)
  · exact colsMat_apply_eq_one (by decide) (by decide)

/-- Claim C2 (code divergence at the failing input): the flip-flop shift
built for `Cycle(3)` is not an involution; the entry `(0,0)` of `S @ S` is
`0`, not the `1` demanded by `S @ S == I`. -/
theorem claim_C2_flipflop_cycle_not_involution :
    matMul 6 (colsMat (flipflopCols 3)) (colsMat (flipflopCols 3)) 0 0 = 0 ∧
    idMat 0 0 = 1 := by
  constructor
  · rw [matMul_colsMat_left 6 _ _ 0 0 (by decide) (by decide)]
    exact colsMat_apply_eq_zero (by decide)
  · rfl

/-! ### Coin catalogue and block-diagonal assembly -/

/-- Degree of a vertex: the length of its neighbor list (`Graph.degree` of
the base class, derived from the adjacency row). -/
def Cycle.degree (num_vert v : ℕ) : ℕ := (Cycle.neighbors num_vert v).length

lemma Cycle.degree_eq_two (num_vert v : ℕ) : Cycle.degree num_vert v = 2 := by
  simp only [Cycle.degree, Cycle.neighbors]
  split <;> rfl

/-- Embeds `Coined._identity_coin` (coined.py lines 493-495):
`scipy.sparse.eye(dim)`, with the dimension recorded in the entries. -/
def identity_coin (dim : ℕ) : ℕ → ℕ → ℚ :=
  fun i j => if i = j ∧ i < dim then 1 else 0

/-- Embeds `Coined._grover_coin` (coined.py lines 485-487):
`2/dim * ones((dim, dim)) - identity(dim)`. -/
def grover_coin (dim : ℕ) : ℕ → ℕ → ℚ :=
  fun i j => if i < dim ∧ j < dim
             then 2 / (dim : ℚ) - (if i = j then 1 else 0) else 0

/-- Embeds `scipy.sparse.block_diag(blocks)`: every block is a pair of its
dimension and its entries; entries outside the diagonal blocks are zero. -/
def blockDiag : List (ℕ × (ℕ → ℕ → ℚ)) → ℕ → ℕ → ℚ
  | [] => fun _ _ => 0
  | (w, B) :: rest => fun i j =>
      if i < w ∧ j < w then B i j
      else if w ≤ i ∧ w ≤ j then blockDiag rest (i - w) (j - w)
      else 0

/-- Embeds `Coined._coin_list_to_explicit_coin` (coined.py lines 513-519):
`block_diag([coin_funcs[coin_list[v]](degree(v)) for v in range(num_vert)])`.
The class-level table `Coined._coin_funcs` of coin functions is passed as
the argument `coin_funcs`. -/
def coin_list_to_explicit_coin (coin_funcs : String → ℕ → (ℕ → ℕ → ℚ))
    (num_vert : ℕ) (degree : ℕ → ℕ) (coin_list : List String) : ℕ → ℕ → ℚ :=
  blockDiag ((List.range num_vert).map
    (fun v => (degree v, coin_funcs (coin_list.getD v "") (degree v))))

/-- Rational-valued members of the class-level table `Coined._coin_funcs`
(coined.py lines 99-108).  The `hadamard` and `fourier` entries of the
source have irrational entries (`1/sqrt(dim)` factors) and are therefore
left out of this rational table (they map to the zero function); no theorem
below evaluates the table at those names, and the theorems about the
configuration machinery are proved for an arbitrary table. -/
def coin_funcs_rat (name : String) (dim : ℕ) : ℕ → ℕ → ℚ :=
  if name = "identity" then identity_coin dim
  else if name = "minus_identity" then fun i j => -(identity_coin dim i j)
  else if name = "grover" then grover_coin dim
  else if name = "minus_grover" then fun i j => -(grover_coin dim i j)
  else fun _ _ => 0

lemma blockDiag_replicate_identity (m d i j : ℕ) :
    blockDiag (List.replicate m (d, identity_coin d)) i j =
      if i = j ∧ i < m * d then 1 else 0 := by
  induction m generalizing i j with
  | zero => simp [blockDiag]
  | succ k ih =>
    rw [List.replicate_succ]
    show (if i < d ∧ j < d then identity_coin d i j
          else if d ≤ i ∧ d ≤ j
               then blockDiag (List.replicate k (d, identity_coin d)) (i - d) (j - d)
               else 0) = _
    rw [Nat.succ_mul]
    by_cases h1 : i < d ∧ j < d
    · rw [if_pos h1]
      unfold identity_coin
      exact if_congr (by omega) rfl rfl
    · rw [if_neg h1]
      by_cases h2 : d ≤ i ∧ d ≤ j
      · rw [if_pos h2, ih]
        exact if_congr (by omega) rfl rfl
      · rw [if_neg h2, if_neg (by omega)]

lemma matMul_blockEye_right (N m d : ℕ) (A : ℕ → ℕ → ℚ) (i j : ℕ)
    (hj : j < N) (hN : N ≤ m * d) :
    matMul N A (blockDiag (List.replicate m (d, identity_coin d))) i j
      = A i j := by
  unfold matMul
  rw [Finset.sum_eq_single j]
  · rw [blockDiag_replicate_identity, if_pos ⟨rfl, by omega⟩, mul_one]
  · intro k _ hk
    rw [blockDiag_replicate_identity, if_neg (by tauto), mul_zero]
  · intro hmem
    exact absurd (Finset.mem_range.mpr hj) hmem

/-! ### Claim C3: persistent walk on the 10-cycle with the identity coin -/

/-- The coin operator materialized for `set_coin('identity')` on the
10-cycle: every vertex gets the `identity` block of dimension
`degree(v) = 2`. -/
def cycle10_identity_coin : ℕ → ℕ → ℚ :=
  coin_list_to_explicit_coin coin_funcs_rat 10 (Cycle.degree 10)
    (List.replicate 10 "identity")

lemma cycle10_identity_coin_eq :
    cycle10_identity_coin = blockDiag (List.replicate 10 (2, identity_coin 2)) := by
  unfold cycle10_identity_coin coin_list_to_explicit_coin
  congr 1

/-- The evolution operator `U = S @ C` of the scenario: persistent shift on
the 10-cycle times the identity coin (`get_evolution`, coined.py line
790). -/
def U10 : ℕ → ℕ → ℚ :=
  matMul 20 (colsMat (persistentCols 10)) cycle10_identity_coin

/-- Basis state at a given arc label (`ket`, coined.py lines 942-948). -/
def basisState (p : ℕ) : ℕ → ℚ := fun i => if i = p then 1 else 0

lemma applyMat_U10 (x : ℕ → ℚ) (i : ℕ) :
    applyMat 20 U10 x i = applyMat 20 (colsMat (persistentCols 10)) x i := by
  apply applyMat_congr
  intro k hk
  unfold U10
  rw [cycle10_identity_coin_eq]
  exact matMul_blockEye_right 20 10 2 _ i k hk (by norm_num)

lemma step_basis (p q : ℕ) (hq : q < 20)
    (h : ∀ i, i < 20 → ((persistentCols 10).getD i 0 = p ↔ i = q)) :
    applyMat 20 U10 (basisState p) = basisState q := by
  funext i
  rw [applyMat_U10, applyMat_colsMat 20 _ _ i (by decide) (by decide)]
  unfold basisState
  by_cases hi : i < 20
  · rw [if_pos hi]
    exact if_congr (h i hi) rfl rfl
  · rw [if_neg hi, if_neg (by omega)]

lemma U10_nine_steps :
    (applyMat 20 U10)^[9] (basisState 0) = basisState 18 := by
  have h1 : applyMat 20 U10 (basisState 0) = basisState 2 :=
    step_basis 0 2 (by norm_num) (by decide)
  have h2 : applyMat 20 U10 (basisState 2) = basisState 4 :=
    step_basis 2 4 (by norm_num) (by decide)
  have h3 : applyMat 20 U10 (basisState 4) = basisState 6 :=
    step_basis 4 6 (by norm_num) (by decide)
  have h4 : applyMat 20 U10 (basisState 6) = basisState 8 :=
    step_basis 6 8 (by norm_num) (by decide)
  have h5 : applyMat 20 U10 (basisState 8) = basisState 10 :=
    step_basis 8 10 (by norm_num) (by decide)
  have h6 : applyMat 20 U10 (basisState 10) = basisState 12 :=
    step_basis 10 12 (by norm_num) (by decide)
  have h7 : applyMat 20 U10 (basisState 12) = basisState 14 :=
    step_basis 12 14 (by norm_num) (by decide)
  have h8 : applyMat 20 U10 (basisState 14) = basisState 16 :=
    step_basis 14 16 (by norm_num) (by decide)
  have h9 : applyMat 20 U10 (basisState 16) = basisState 18 :=
    step_basis 16 18 (by norm_num) (by decide)
  rw [show (9 : ℕ) = 8 + 1 from rfl, Function.iterate_succ_apply, h1,
      show (8 : ℕ) = 7 + 1 from rfl, Function.iterate_succ_apply, h2,
      show (7 : ℕ) = 6 + 1 from rfl, Function.iterate_succ_apply, h3,
      show (6 : ℕ) = 5 + 1 from rfl, Function.iterate_succ_apply, h4,
      show (5 : ℕ) = 4 + 1 from rfl, Function.iterate_succ_apply, h5,
      show (4 : ℕ) = 3 + 1 from rfl, Function.iterate_succ_apply, h6,
      show (3 : ℕ) = 2 + 1 from rfl, Function.iterate_succ_apply, h7,
      show (2 : ℕ) = 1 + 1 from rfl, Function.iterate_succ_apply, h8,
      show (1 : ℕ) = 0 + 1 from rfl, Function.iterate_succ_apply, h9]
  rfl

/-- Claim C3 counterexample: after `num_vert - 1 = 9` applications of the
evolution operator `U = S @ C` (persistent shift on the 10-cycle, identity
coin) to the basis state at arc label 0, the amplitude at the last arc
label 19 is `0` — the walker sits at arc label 18 with amplitude `1`, so
the claim as stated (concentration at label 19) is false. -/
theorem claim_C3_counterexample :
    ((applyMat 20 U10)^[9] (basisState 0)) 19 = 0 ∧
    ((applyMat 20 U10)^[9] (basisState 0)) 18 = 1 := by
  rw [U10_nine_steps]
  constructor <;> norm_num [basisState]

/-- Claim C3 (amended): for the 10-vertex cycle with the persistent shift
and the identity coin, starting from the basis state at arc label 0,
applying `U = S @ C` for `num_vert - 1 = 9` steps yields exactly the basis
state at arc label `18` (the rightward arc `(9, 0)`): amplitude 1 there
and 0 at every other label, in particular at label 19. -/
theorem claim_C3_persistent_cycle10_transfer :
    (applyMat 20 U10)^[9] (basisState 0) = basisState 18 :=
  U10_nine_steps

/-! ### Claim C4: `arc_label` and `arc` are mutual inverses on the Cycle -/

/-- Arcs of the cycle as built in `Cycle.__init__` (cycle.py lines 31-44):
vertex `v` is adjacent to `(v+1) % n` and `(v-1) % n`. -/
def Cycle.isArc (num_vert t h : ℕ) : Prop :=
  t < num_vert ∧
    (h = (t + 1) % num_vert ∨ h = (t + (num_vert - 1)) % num_vert)

lemma emod_eval {a n : ℤ} (h0 : 0 ≤ a) (h1 : a < n) : a % n = a :=
  Int.emod_eq_of_lt h0 h1

lemma emod_add_self (a n : ℤ) : (a + n) % n = a % n := by
  have h := Int.add_mul_emod_self_left (a := a) (b := n) (c := 1)
  simp only [mul_one] at h
  exact h

lemma emod_neg_one {n : ℤ} (hn : 1 ≤ n) : (-1) % n = n - 1 := by
  rw [← emod_add_self (-1) n, emod_eval (by omega) (by omega)]
  ring

/-- Claim C4: on every cycle with at least 3 vertices, `arc ∘ arc_label` is
the identity on the arcs of the graph, and `arc_label ∘ arc` is the
identity on the label range `[0, num_arcs)`. -/
theorem claim_C4_arc_label_arc_inverse (n : ℕ) (hn : 3 ≤ n) :
    (∀ t h, Cycle.isArc n t h → Cycle.arc n (Cycle.arc_label n t h) = (t, h)) ∧
    (∀ l, l < Cycle.number_of_arcs n →
      Cycle.arc_label n (Cycle.arc n l).1 (Cycle.arc n l).2 = l) := by
  have hnz : (3 : ℤ) ≤ (n : ℤ) := by exact_mod_cast hn
  constructor
  · rintro t h ⟨ht, hh | hh⟩
    · by_cases hlt : t + 1 < n
      · have hh' : h = t + 1 := by rw [hh, Nat.mod_eq_of_lt hlt]
        subst hh'
        have hl : Cycle.arc_label n t (t + 1) = 2 * t := by
          unfold Cycle.arc_label
          rw [if_pos]
          left
          push_cast
          ring
        rw [hl]
        unfold Cycle.arc
        rw [show 2 * t / 2 = t by omega, show 2 * t % 2 = 0 by omega, pow_zero,
            emod_eval (a := (t : ℤ) + 1) (n := (n : ℤ)) (by omega)
              (by exact_mod_cast hlt)]
        simp only [Prod.mk.injEq, eq_self_iff_true, true_and]
        omega
      · have htn : t + 1 = n := by omega
        have hh' : h = 0 := by rw [hh, htn, Nat.mod_self]
        subst hh'
        have hl : Cycle.arc_label n t 0 = 2 * t := by
          unfold Cycle.arc_label
          rw [if_pos]
          right
          push_cast
          omega
        rw [hl]
        unfold Cycle.arc
        rw [show 2 * t / 2 = t by omega, show 2 * t % 2 = 0 by omega, pow_zero,
            show (t : ℤ) + 1 = (n : ℤ) by exact_mod_cast htn, Int.emod_self]
        simp only [Prod.mk.injEq, eq_self_iff_true, true_and]
        rfl
    · by_cases ht1 : 1 ≤ t
      · have hh' : h = t - 1 := by
          rw [hh, show t + (n - 1) = (t - 1) + n by omega, Nat.add_mod_right,
              Nat.mod_eq_of_lt (by omega)]
        subst hh'
        have hl : Cycle.arc_label n t (t - 1) = 2 * t + 1 := by
          unfold Cycle.arc_label
          rw [if_neg]
          rintro (h1 | h2)
          · rw [Nat.cast_sub ht1] at h1
            omega
          · rw [Nat.cast_sub ht1] at h2
            omega
        rw [hl]
        unfold Cycle.arc
        rw [show (2 * t + 1) / 2 = t by omega, show (2 * t + 1) % 2 = 1 by omega,
            pow_one,
            show (t : ℤ) + (-1) = (t : ℤ) - 1 by ring,
            emod_eval (a := (t : ℤ) - 1) (n := (n : ℤ)) (by omega) (by omega)]
        simp only [Prod.mk.injEq, eq_self_iff_true, true_and]
        omega
      · have ht0 : t = 0 := by omega
        subst ht0
        have hh' : h = n - 1 := by
          rw [hh, Nat.zero_add, Nat.mod_eq_of_lt (by omega)]
        subst hh'
        have hl : Cycle.arc_label n 0 (n - 1) = 1 := by
          unfold Cycle.arc_label
          rw [if_neg]
          rintro (h1 | h2)
          · rw [Nat.cast_sub (by omega)] at h1
            omega
          · rw [Nat.cast_sub (by omega)] at h2
            omega
        rw [hl]
        unfold Cycle.arc
        norm_num
        rw [emod_neg_one (n := (n : ℤ)) (by omega)]
        omega
  · intro l hl
    unfold Cycle.number_of_arcs at hl
    have h2 : l % 2 = 0 ∨ l % 2 = 1 := by omega
    have htn : l / 2 < n := by omega
    rcases h2 with h2 | h2
    · unfold Cycle.arc
      rw [h2, pow_zero]
      by_cases hlt : l / 2 + 1 < n
      · rw [emod_eval (a := ((l / 2 : ℕ) : ℤ) + 1) (n := (n : ℤ)) (by omega)
              (by push_cast; omega)]
        unfold Cycle.arc_label
        rw [if_pos]
        · omega
        · left
          rw [Int.toNat_of_nonneg (by omega)]
          push_cast
          ring
      · rw [show ((l / 2 : ℕ) : ℤ) + 1 = (n : ℤ) by push_cast; omega, Int.emod_self]
        unfold Cycle.arc_label
        rw [if_pos]
        · omega
        · right
          norm_num
          omega
    · unfold Cycle.arc
      rw [h2, pow_one]
      by_cases ht1 : 1 ≤ l / 2
      · rw [show ((l / 2 : ℕ) : ℤ) + (-1) = ((l / 2 : ℕ) : ℤ) - 1 by ring,
            emod_eval (a := ((l / 2 : ℕ) : ℤ) - 1) (n := (n : ℤ)) (by omega)
              (by push_cast; omega)]
        unfold Cycle.arc_label
        rw [if_neg]
        · omega
        · rintro (h1 | h2)
          · rw [Int.toNat_of_nonneg (by omega)] at h1
            omega
          · rw [Int.toNat_of_nonneg (by omega)] at h2
            omega
      · have ht0 : l / 2 = 0 := by omega
        rw [ht0]
        norm_num
        rw [emod_neg_one (n := (n : ℤ)) (by omega)]
        unfold Cycle.arc_label
        rw [if_neg]
        · omega
        · rintro (h1 | h2)
          · rw [Int.toNat_of_nonneg (by omega)] at h1
            omega
          · rw [Int.toNat_of_nonneg (by omega)] at h2
            omega

/-- Witness for claim C4: concrete evaluation on the 10-cycle, arc `(7,6)`
with label 15. -/
theorem claim_C4_witness :
    Cycle.arc 10 (Cycle.arc_label 10 7 6) = (7, 6) ∧
    Cycle.arc_label 10 (Cycle.arc 10 15).1 (Cycle.arc 10 15).2 = 15 := by
  have h := claim_C4_arc_label_arc_inverse 10 (by norm_num)
  refine ⟨h.1 7 6 ⟨by norm_num, Or.inr (by norm_num)⟩, h.2 15 ?_⟩
  unfold Cycle.number_of_arcs
  norm_num

/-! ### Claim C5: probability-distribution rows sum to 1 -/

/-- Modelled from the spec: `QuantumWalk._elementwise_probability` (base
class, not under `src/`) maps an amplitude to `|amplitude|^2` (spec section
4.6).  Amplitudes are complex numbers modelled as pairs of rationals
`(re, im)`. -/
def elementwise_probability (z : ℚ × ℚ) : ℚ := z.1 ^ 2 + z.2 ^ 2

/-- Modelled from the spec: `Graph.arcs_with_tail(v)` (base class, not
under `src/`) returns the labels of the arcs with tail `v`, the contiguous
CSR row range `[indptr[v], indptr[v+1])`; on the cycle the two arcs with
tail `v` carry the labels `2v` and `2v + 1`. -/
def arcs_with_tail (num_vert v : ℕ) : List ℕ := [2 * v, 2 * v + 1]

/-- Embeds `Coined.probability_distribution` (coined.py lines 827-854) on
the cycle: entry `(i, v)` of the result is the sum of
`_elementwise_probability` over the entries of state `i` at the indices
`arcs_with_tail(v)`. -/
def probability_distribution (num_vert : ℕ) (states : List (ℕ → ℚ × ℚ)) :
    List (ℕ → ℚ) :=
  states.map (fun state v =>
    ((arcs_with_tail num_vert v).map
      (fun l => elementwise_probability (state l))).sum)

lemma sum_range_pairs (n : ℕ) (f : ℕ → ℚ) :
    ∑ v ∈ Finset.range n, (f (2 * v) + f (2 * v + 1))
      = ∑ l ∈ Finset.range (2 * n), f l := by
  induction n with
  | zero => simp
  | succ k ih =>
    rw [Finset.sum_range_succ, ih, show 2 * (k + 1) = 2 * k + 1 + 1 by ring,
        Finset.sum_range_succ, Finset.sum_range_succ]
    ring

/-- Claim C5: for an L2-normalized state of the walk on a cycle, the row of
`probability_distribution` derived from it sums to 1 over the vertices: the
arcs partition by tail vertex, so the per-vertex sums of `|amplitude|^2`
recover the squared norm. -/
theorem claim_C5_probability_rows_sum_one (n : ℕ) (states : List (ℕ → ℚ × ℚ))
    (state : ℕ → ℚ × ℚ) (hmem : state ∈ states)
    (hnorm : ∑ l ∈ Finset.range (Cycle.number_of_arcs n),
      elementwise_probability (state l) = 1) :
    (fun v => ((arcs_with_tail n v).map
        (fun l => elementwise_probability (state l))).sum)
      ∈ probability_distribution n states ∧
    ∑ v ∈ Finset.range n,
      ((arcs_with_tail n v).map
        (fun l => elementwise_probability (state l))).sum = 1 := by
  constructor
  · exact List.mem_map_of_mem _ hmem
  · unfold Cycle.number_of_arcs at hnorm
    rw [← hnorm, ← sum_range_pairs n (fun l => elementwise_probability (state l))]
    apply Finset.sum_congr rfl
    intro v _
    simp [arcs_with_tail]

/-- Witness state for claim C5: the basis state at arc label 0 (amplitude
`1 + 0i` there, zero elsewhere). -/
def probabilityWitnessState : ℕ → ℚ × ℚ :=
  fun l => if l = 0 then (1, 0) else (0, 0)

/-- Witness for claim C5: the concrete basis state at arc label 0 on the
1-vertex cycle. -/
theorem claim_C5_witness :
    (fun v => ((arcs_with_tail 1 v).map
        (fun l => elementwise_probability (probabilityWitnessState l))).sum)
      ∈ probability_distribution 1 [probabilityWitnessState] ∧
    ∑ v ∈ Finset.range 1,
      ((arcs_with_tail 1 v).map
        (fun l => elementwise_probability (probabilityWitnessState l))).sum = 1 :=
  claim_C5_probability_rows_sum_one 1 [probabilityWitnessState]
    probabilityWitnessState (List.mem_singleton.mpr rfl)
    (by
      unfold Cycle.number_of_arcs
      rw [show 2 * 1 = 1 + 1 from rfl, Finset.sum_range_succ, Finset.sum_range_succ]
      norm_num [probabilityWitnessState, elementwise_probability])

/-! ### Coin specification resolution (`Coined._coin_to_valid_name`,
`Coined._coin_to_list`) -/

/-- Keys of the class-level table `Coined._coin_funcs`
(coined.py lines 99-108). -/
def valid_coin_names : List String :=
  ["fourier", "grover", "hadamard", "identity",
   "minus_fourier", "minus_grover", "minus_hadamard", "minus_identity"]

/-- The abbreviation dictionary `abbrv` of `Coined._coin_to_valid_name`
(coined.py lines 426-427); `none` models the `KeyError` of a failed
lookup. -/
def coin_abbrv (c : Char) : Option String :=
  if c = 'F' then some "fourier"
  else if c = 'G' then some "grover"
  else if c = 'H' then some "hadamard"
  else if c = 'I' then some "identity"
  else none

/-- Embeds `Coined._coin_to_valid_name` (coined.py lines 416-437).  The
graph's `default_coin()` is passed in (`'hadamard'` for the cycle,
cycle.py lines 49-53).  Raised exceptions (`KeyError` of a bad
abbreviation, `IndexError` of `s[-1]` on an empty string, the `ValueError`
of an unknown name) become `Except.error`. -/
def coin_to_valid_name (default_coin coin : String) : Except String String :=
  let s := if coin = "default" ∨ coin = "d" then default_coin else coin
  if s.length = 0 then .error "IndexError"
  else if s.length ≤ 2 then
    match coin_abbrv s.back with
    | some nm =>
        let s2 := (if coin.length = 2 then "minus_" else "") ++ nm
        if s2 ∈ valid_coin_names then .ok s2 else .error "Invalid coin."
    | none => .error "KeyError"
  else if s ∈ valid_coin_names then .ok s else .error "Invalid coin."

/-- The four accepted shapes of a coin specification (`set_coin`,
coined.py lines 343-374), as a tagged union; a Python `dict` becomes an
association list in its iteration order. -/
inductive CoinSpec where
  | str (s : String)
  | list (l : List String)
  | dict (d : List (String × List ℕ))
  | matrix (M : ℕ → ℕ → ℚ)

/-- One iteration of the `for key in coin` loop of `_coin_to_list`
(coined.py lines 456-467): a non-empty vertex list assigns the coin name
to exactly its vertices; an empty list assigns it to every vertex whose
slot is still unassigned (`''`). -/
def apply_dict_entry (nm : String) (verts : List ℕ) (acc : List String) :
    List String :=
  if verts = [] then acc.map (fun s => if s = "" then nm else s)
  else verts.foldl (fun a v => a.set v nm) acc

/-- The `for key in coin` loop of the dict branch of `_coin_to_list`
(coined.py lines 454-467), validating each key via
`_coin_to_valid_name`. -/
def coin_dict_fold (default_coin : String) :
    List (String × List ℕ) → List String → Except String (List String)
  | [], acc => .ok acc
  | p :: rest, acc =>
      match coin_to_valid_name default_coin p.1 with
      | .error e => .error e
      | .ok nm => coin_dict_fold default_coin rest (apply_dict_entry nm p.2 acc)

/-- Embeds `Coined._coin_to_list` (coined.py lines 439-479) for the three
non-matrix shapes; returns the coin list together with the
`undefined_coin` flag. -/
def coin_to_list (default_coin : String) (num_vert : ℕ) :
    CoinSpec → Except String (List String × Bool)
  | .str s =>
      match coin_to_valid_name default_coin s with
      | .error e => .error e
      | .ok nm => .ok (List.replicate num_vert nm, false)
  | .dict d =>
      match coin_dict_fold default_coin d (List.replicate num_vert "") with
      | .error e => .error e
      | .ok cl => .ok (cl, cl.contains "")
  | .list l =>
      if l.length ≠ num_vert then .error "Wrong number of coins."
      else
        match l.mapM (coin_to_valid_name default_coin) with
        | .error e => .error e
        | .ok nms => .ok (nms, false)
  | .matrix _ => .error "matrix is not resolved through a coin list"

/-! ### Walk configuration state machine (`Coined` setters and
`get_evolution`) -/

/-- The stored `_coin` attribute: a resolved per-vertex coin list or an
explicit matrix (`set_coin`, coined.py lines 390-410). -/
inductive StoredCoin where
  | list (l : List String)
  | matrix (M : ℕ → ℕ → ℚ)

/-- The two accepted shapes of `set_marked`'s argument (coined.py lines
540-594). -/
inductive MarkedSpec where
  | list (l : List ℕ)
  | dict (d : List (String × List ℕ))

/-- The mutable configuration of a `Coined` walk instance on a cycle:
`_shift` (kept as the column list of the built csr matrix), `_coin`,
`_oracle_coin`, the marked list stored by the base class, and the memoized
`_evolution`. -/
structure CoinedState where
  shift : Option (List ℕ)
  coin : Option StoredCoin
  oracle_coin : List String
  marked : List ℕ
  evolution : Option (ℕ → ℕ → ℚ)

/-- Embeds `Coined.set_shift` (coined.py lines 192-327) on the cycle:
validates the keyword, resolves `'default'` to the persistent shift (the
cycle is embeddable, so `has_persistent_shift()` is true), builds the
matching shift operator and unsets the memoized evolution operator. -/
def set_shift (num_vert : ℕ) (shift : String) (st : CoinedState) :
    Except String CoinedState :=
  if shift ∉ ["default", "flipflop", "persistent", "ff", "p"] then
    .error "Invalid shift value."
  else
    let s1 := if shift = "default" then "p" else shift
    let s2 := if s1 = "ff" then "flipflop"
              else if s1 = "p" then "persistent" else s1
    let st1 := if s2 = "flipflop"
      then { st with shift := some (flipflopCols num_vert), evolution := none }
      else { st with shift := some (persistentCols num_vert), evolution := none }
    .ok { st1 with evolution := none }

/-- Embeds `Coined.set_coin` (coined.py lines 331-414) on the cycle: an
explicit matrix is stored verbatim; otherwise the specification is
resolved to a coin list, failing if a vertex is left without a coin; in
either successful case the memoized evolution operator is unset. -/
def set_coin (num_vert : ℕ) (coin : CoinSpec) (st : CoinedState) :
    Except String CoinedState :=
  match coin with
  | .matrix M => .ok { st with coin := some (.matrix M), evolution := none }
  | c =>
      match coin_to_list "hadamard" num_vert c with
      | .error e => .error e
      | .ok (coin_list, undefined_coin) =>
          if undefined_coin then .error "Coin was not specified for all vertices."
          else .ok { st with coin := some (.list coin_list), evolution := none }

/-- Embeds `Coined.set_marked` (coined.py lines 540-594).  A dictionary is
resolved to an oracle coin list (its `undefined_coin` flag is discarded)
and its vertex lists are flattened into the marked list; the memoized
evolution operator is unset only when the new oracle list or the previous
one is non-empty (`if bool(coin_list) or bool(self._oracle_coin)`).  The
base-class `QuantumWalk.set_marked` (not under `src/`) is modelled from
the spec as storing the marked vertices. -/
def set_marked (num_vert : ℕ) (marked : MarkedSpec) (st : CoinedState) :
    Except String CoinedState :=
  match marked with
  | .list verts =>
      let st1 := { st with marked := verts }
      let st2 := if st1.oracle_coin ≠ [] then { st1 with evolution := none }
                 else st1
      .ok { st2 with oracle_coin := [] }
  | .dict d =>
      match coin_to_list "hadamard" num_vert (.dict d) with
      | .error e => .error e
      | .ok (coin_list, _) =>
          let st1 := { st with marked := d.flatMap (fun p => p.2) }
          let st2 := if coin_list ≠ [] ∨ st1.oracle_coin ≠ []
                     then { st1 with evolution := none } else st1
          .ok { st2 with oracle_coin := coin_list }

/-- A graph handle as consumed by `get_coin`: vertex count, neighbor
lists, and the arc labeling (spec section 6, Graph Adapter contract). -/
structure GraphAdapter where
  num_vert : ℕ
  neighbors : ℕ → List ℕ
  arc_label : ℕ → ℕ → ℕ

/-- Degree of a vertex under an adapter. -/
def GraphAdapter.degree (g : GraphAdapter) (v : ℕ) : ℕ := (g.neighbors v).length

/-- The cycle as a graph adapter. -/
def cycleAdapter (n : ℕ) : GraphAdapter :=
  ⟨n, Cycle.neighbors n, Cycle.arc_label n⟩

/-- Embeds `get_block` of `Coined.get_coin` (coined.py lines 632-639): the
diagonal slice `self._coin[start:end, start:end]` with
`start = arc_label(vertex, neighbors[0])` and
`end = arc_label(vertex, neighbors[-1]) + 1`, paired with its dimension
`end - start` for `block_diag`. -/
def get_block (g : GraphAdapter) (M : ℕ → ℕ → ℚ) (v : ℕ) :
    ℕ × (ℕ → ℕ → ℚ) :=
  let start := g.arc_label v ((g.neighbors v).headD 0)
  let stop := g.arc_label v ((g.neighbors v).getLastD 0) + 1
  (stop - start, fun i j => M (start + i) (start + j))

/-- Embeds `Coined.get_coin` (coined.py lines 596-662).  With an explicit
matrix coin: returned verbatim when no oracle is present, otherwise
reassembled per vertex with marked vertices' blocks taken fresh from the
coin-function table and unmarked vertices' blocks sliced out of the
stored matrix.  With a coin list: the oracle names override the stored
ones before materialization. -/
def get_coin (coin_funcs : String → ℕ → (ℕ → ℕ → ℚ)) (g : GraphAdapter)
    (st : CoinedState) : Except String (ℕ → ℕ → ℚ) :=
  match st.coin with
  | some (.matrix M) =>
      if st.oracle_coin = [] then .ok M
      else
        .ok (blockDiag ((List.range g.num_vert).map (fun v =>
          if st.oracle_coin.getD v "" ≠ ""
          then (g.degree v, coin_funcs (st.oracle_coin.getD v "") (g.degree v))
          else get_block g M v)))
  | some (.list cl) =>
      let coin_list := if st.oracle_coin ≠ []
        then (List.range cl.length).map (fun i =>
          if st.oracle_coin.getD i "" ≠ "" then st.oracle_coin.getD i ""
          else cl.getD i "")
        else cl
      .ok (coin_list_to_explicit_coin coin_funcs g.num_vert g.degree coin_list)
  | none => .error "coin is not set"

/-- Embeds `Coined.get_evolution` (coined.py lines 701-793) on its local
path (without an accelerated engine, `hpc` degrades silently to the local
multiply, coined.py lines 765-766): a memoized operator is returned
unchanged, otherwise `U = S @ C` is computed from the current shift and
effective coin and memoized.  The method call returns the operator and
the post-call state. -/
def get_evolution (coin_funcs : String → ℕ → (ℕ → ℕ → ℚ)) (g : GraphAdapter)
    (num_arcs : ℕ) (st : CoinedState) :
    Except String ((ℕ → ℕ → ℚ) × CoinedState) :=
  match st.evolution with
  | some U => .ok (U, st)
  | none =>
      match st.shift with
      | none => .error "shift is not set"
      | some cols =>
          match get_coin coin_funcs g st with
          | .error e => .error e
          | .ok C =>
              let U := matMul num_arcs (colsMat cols) C
              .ok (U, { st with evolution := some U })

/-! ### Claims C6 and C7: invalidation of the memoized evolution operator -/

lemma set_shift_evolution_none {n : ℕ} {s : String} {st st' : CoinedState}
    (hset : set_shift n s st = .ok st') : st'.evolution = none := by
  unfold set_shift at hset
  split at hset
  · exact absurd hset (by simp)
  · rw [Except.ok.injEq] at hset
    rw [← hset]

lemma set_coin_evolution_none {n : ℕ} {c : CoinSpec} {st st' : CoinedState}
    (hset : set_coin n c st = .ok st') : st'.evolution = none := by
  cases c with
  | matrix M =>
      simp only [set_coin, Except.ok.injEq] at hset
      subst hset
      rfl
  | str s =>
      simp only [set_coin] at hset
      cases hcl : coin_to_list "hadamard" n (.str s) with
      | error e => rw [hcl] at hset; exact absurd hset (by simp)
      | ok pair =>
          obtain ⟨cl, u⟩ := pair
          rw [hcl] at hset
          dsimp only at hset
          by_cases hu : u = true
          · rw [if_pos hu] at hset
            exact absurd hset (by simp)
          · rw [if_neg hu] at hset
            rw [Except.ok.injEq] at hset
            subst hset
            rfl
  | list l =>
      simp only [set_coin] at hset
      cases hcl : coin_to_list "hadamard" n (.list l) with
      | error e => rw [hcl] at hset; exact absurd hset (by simp)
      | ok pair =>
          obtain ⟨cl, u⟩ := pair
          rw [hcl] at hset
          dsimp only at hset
          by_cases hu : u = true
          · rw [if_pos hu] at hset
            exact absurd hset (by simp)
          · rw [if_neg hu] at hset
            rw [Except.ok.injEq] at hset
            subst hset
            rfl
  | dict d =>
      simp only [set_coin] at hset
      cases hcl : coin_to_list "hadamard" n (.dict d) with
      | error e => rw [hcl] at hset; exact absurd hset (by simp)
      | ok pair =>
          obtain ⟨cl, u⟩ := pair
          rw [hcl] at hset
          dsimp only at hset
          by_cases hu : u = true
          · rw [if_pos hu] at hset
            exact absurd hset (by simp)
          · rw [if_neg hu] at hset
            rw [Except.ok.injEq] at hset
            subst hset
            rfl

/-- Claim C6: whatever the prior configuration (in particular a memoized
evolution operator), a successful `set_coin` leaves the memo unset, and
the next `get_evolution` call recomputes `U = S @ C` from the current
shift and the effective coin of the *new* configuration and memoizes it —
it never returns the stale cached operator. -/
theorem claim_C6_set_coin_invalidates_evolution
    (coin_funcs : String → ℕ → (ℕ → ℕ → ℚ)) (n : ℕ) (st st' : CoinedState)
    (c : CoinSpec) (cols : List ℕ) (C : ℕ → ℕ → ℚ)
    (hset : set_coin n c st = .ok st')
    (hshift : st'.shift = some cols)
    (hcoin : get_coin coin_funcs (cycleAdapter n) st' = .ok C) :
    st'.evolution = none ∧
    get_evolution coin_funcs (cycleAdapter n) (Cycle.number_of_arcs n) st' =
      .ok (matMul (Cycle.number_of_arcs n) (colsMat cols) C,
           { st' with
              evolution := some (matMul (Cycle.number_of_arcs n)
                (colsMat cols) C) }) := by
  have hev : st'.evolution = none := set_coin_evolution_none hset
  refine ⟨hev, ?_⟩
  unfold get_evolution
  rw [hev, hshift, hcoin]

/-- A stale memoized evolution operator used in concrete configurations. -/
def staleEvo : ℕ → ℕ → ℚ := fun _ _ => 5

/-- A concrete walk configuration on `Cycle(3)` whose evolution operator
has already been computed (and memoized as `staleEvo`), with no oracle
configured. -/
def preState : CoinedState :=
  ⟨some (flipflopCols 3), some (.list (List.replicate 3 "grover")), [], [],
   some staleEvo⟩

/-- The configuration after `set_coin('identity')` on `preState`. -/
def postState : CoinedState :=
  { preState with coin := some (.list (List.replicate 3 "identity")),
                  evolution := none }

/-- Witness for claim C6: on `Cycle(3)` with a stale memo, after
`set_coin('identity')` the memo is unset and `get_evolution` returns
`S @ C` for the new identity coin list, not `staleEvo`. -/
theorem claim_C6_witness :
    postState.evolution = none ∧
    get_evolution coin_funcs_rat (cycleAdapter 3) (Cycle.number_of_arcs 3)
        postState =
      .ok (matMul (Cycle.number_of_arcs 3) (colsMat (flipflopCols 3))
             (coin_list_to_explicit_coin coin_funcs_rat 3
               (cycleAdapter 3).degree (List.replicate 3 "identity")),
           { postState with
              evolution := some (matMul (Cycle.number_of_arcs 3)
                (colsMat (flipflopCols 3))
                (coin_list_to_explicit_coin coin_funcs_rat 3
                  (cycleAdapter 3).degree (List.replicate 3 "identity"))) }) :=
  claim_C6_set_coin_invalidates_evolution coin_funcs_rat 3 preState postState
    (.str "identity") (flipflopCols 3) _ rfl rfl rfl

/-- Claim C7 counterexample: calling `set_marked` with a plain vertex list
when no oracle map is configured does *not* unset the memoized evolution
operator: on `preState` (memo `staleEvo`, empty oracle),
`set_marked([0])` succeeds and the memo is still `staleEvo`, not the
unset state demanded by the claim. -/
theorem claim_C7_counterexample :
    set_marked 3 (.list [0]) preState = .ok { preState with marked := [0] } ∧
    ({ preState with marked := [0] } : CoinedState).evolution = some staleEvo ∧
    some staleEvo ≠ (none : Option (ℕ → ℕ → ℚ)) := by
  refine ⟨rfl, rfl, ?_⟩
  simp

/-- Claim C7 (amended): `set_shift` and `set_coin` always transition the
memoized evolution operator to the unset state; `set_marked` does so
exactly when the newly resolved oracle coin list is non-empty or an
oracle list was previously configured — in particular, a plain
vertex-list call with no previously configured oracle map leaves the
memoized operator untouched. -/
theorem claim_C7_setters_invalidation (n : ℕ) (st : CoinedState) :
    (∀ s st', set_shift n s st = .ok st' → st'.evolution = none) ∧
    (∀ c st', set_coin n c st = .ok st' → st'.evolution = none) ∧
    (∀ verts st', set_marked n (.list verts) st = .ok st' →
       st'.evolution = (if st.oracle_coin ≠ [] then none else st.evolution)) ∧
    (∀ d cl u st', coin_to_list "hadamard" n (.dict d) = .ok (cl, u) →
       set_marked n (.dict d) st = .ok st' →
       st'.evolution =
         (if cl ≠ [] ∨ st.oracle_coin ≠ [] then none else st.evolution)) := by
  refine ⟨fun s st' h => set_shift_evolution_none h,
          fun c st' h => set_coin_evolution_none h, ?_, ?_⟩
  · intro verts st' hset
    simp only [set_marked, Except.ok.injEq] at hset
    subst hset
    by_cases hc : st.oracle_coin ≠ []
    · simp [hc]
    · simp [hc]
  · intro d cl u st' hcl hset
    simp only [set_marked] at hset
    rw [hcl] at hset
    rw [Except.ok.injEq] at hset
    subst hset
    by_cases hc : cl ≠ [] ∨ st.oracle_coin ≠ []
    · simp only [if_pos hc]
    · push_neg at hc
      simp [hc.1, hc.2]

/-- Witness for claim C7 (amended statement): concrete instantiation of
the `set_marked`-with-a-list case on `preState`, whose oracle list is
empty, showing the memo is kept. -/
theorem claim_C7_witness :
    ({ preState with marked := [0] } : CoinedState).evolution =
      (if preState.oracle_coin ≠ [] then none else preState.evolution) :=
  (claim_C7_setters_invalidation 3 preState).2.2.1 [0]
    { preState with marked := [0] } rfl

/-! ### Claim C9: explicit-matrix coin with marked-vertex oracle -/

/-- Offset of the `k`-th diagonal block of `block_diag`: the sum of the
dimensions of the blocks before it. -/
def offsetsOf : List (ℕ × (ℕ → ℕ → ℚ)) → ℕ → ℕ
  | [], _ => 0
  | p :: rest, k =>
      match k with
      | 0 => 0
      | k + 1 => p.1 + offsetsOf rest k

lemma blockDiag_block (L : List (ℕ × (ℕ → ℕ → ℚ))) :
    ∀ (k i j : ℕ) (hk : k < L.length),
      i < (L.get ⟨k, hk⟩).1 → j < (L.get ⟨k, hk⟩).1 →
      blockDiag L (offsetsOf L k + i) (offsetsOf L k + j)
        = (L.get ⟨k, hk⟩).2 i j := by
  induction L with
  | nil =>
      intro k i j hk
      exact absurd hk (by simp)
  | cons hd tl ih =>
      intro k i j hk hi hj
      obtain ⟨w, B⟩ := hd
      cases k with
      | zero =>
          show blockDiag ((w, B) :: tl) (0 + i) (0 + j) = B i j
          rw [Nat.zero_add, Nat.zero_add]
          show (if i < w ∧ j < w then B i j
                else if w ≤ i ∧ w ≤ j then blockDiag tl (i - w) (j - w)
                else 0) = B i j
          rw [if_pos ⟨hi, hj⟩]
      | succ m =>
          show blockDiag ((w, B) :: tl)
              (w + offsetsOf tl m + i) (w + offsetsOf tl m + j) = _
          show (if w + offsetsOf tl m + i < w ∧ w + offsetsOf tl m + j < w
                then B (w + offsetsOf tl m + i) (w + offsetsOf tl m + j)
                else if w ≤ w + offsetsOf tl m + i ∧ w ≤ w + offsetsOf tl m + j
                then blockDiag tl (w + offsetsOf tl m + i - w)
                       (w + offsetsOf tl m + j - w)
                else 0) = _
          rw [if_neg (by omega), if_pos ⟨by omega, by omega⟩,
              show w + offsetsOf tl m + i - w = offsetsOf tl m + i by omega,
              show w + offsetsOf tl m + j - w = offsetsOf tl m + j by omega]
          exact ih m i j (by simpa using hk) hi hj

lemma offsetsOf_eq_sum (L : List (ℕ × (ℕ → ℕ → ℚ))) :
    ∀ (k : ℕ), k ≤ L.length →
      offsetsOf L k = ∑ u ∈ Finset.range k, (L.getD u (0, fun _ _ => 0)).1 := by
  induction L with
  | nil =>
      intro k hk
      have : k = 0 := by simpa using hk
      subst this
      simp [offsetsOf]
  | cons hd tl ih =>
      intro k hk
      cases k with
      | zero => simp [offsetsOf]
      | succ m =>
          show hd.1 + offsetsOf tl m = _
          rw [ih m (by simpa using hk), Finset.sum_range_succ']
          simp [List.getD_cons_succ, List.getD_cons_zero]
          ring

/-- Claim C9: with an explicit-matrix coin and a non-empty oracle map, on
any graph adapter whose arc labeling follows the block layout (the arcs
with tail `v` occupy the contiguous range starting at
`arc_label(v, neighbors(v)[0])` of width `degree(v)`, the precondition of
spec section 9), the effective coin returned by `get_coin` keeps, for
every unmarked vertex, the diagonal sub-block over that vertex's arc-label
range bit-identical to the stored matrix's slice; marked vertices' blocks
are the fresh table blocks; and the stored coin configuration is
untouched. -/
theorem claim_C9_explicit_coin_oracle_blocks
    (coin_funcs : String → ℕ → (ℕ → ℕ → ℚ)) (g : GraphAdapter)
    (M : ℕ → ℕ → ℚ) (st : CoinedState)
    (hst : st.coin = some (.matrix M))
    (hne : st.oracle_coin ≠ [])
    (hstart : ∀ v, v < g.num_vert →
      g.arc_label v ((g.neighbors v).headD 0) = ∑ u ∈ Finset.range v, g.degree u)
    (hwidth : ∀ v, v < g.num_vert →
      g.arc_label v ((g.neighbors v).getLastD 0) + 1
        = g.arc_label v ((g.neighbors v).headD 0) + g.degree v) :
    ∃ R, get_coin coin_funcs g st = .ok R ∧
      (∀ v, v < g.num_vert → st.oracle_coin.getD v "" = "" →
        ∀ i j, i < g.degree v → j < g.degree v →
          R (g.arc_label v ((g.neighbors v).headD 0) + i)
            (g.arc_label v ((g.neighbors v).headD 0) + j)
          = M (g.arc_label v ((g.neighbors v).headD 0) + i)
              (g.arc_label v ((g.neighbors v).headD 0) + j)) ∧
      (∀ v, v < g.num_vert → st.oracle_coin.getD v "" ≠ "" →
        ∀ i j, i < g.degree v → j < g.degree v →
          R (g.arc_label v ((g.neighbors v).headD 0) + i)
            (g.arc_label v ((g.neighbors v).headD 0) + j)
          = coin_funcs (st.oracle_coin.getD v "") (g.degree v) i j) ∧
      st.coin = some (.matrix M) := by
  classical
  set blk : ℕ → ℕ × (ℕ → ℕ → ℚ) := fun v =>
    if st.oracle_coin.getD v "" ≠ ""
    then (g.degree v, coin_funcs (st.oracle_coin.getD v "") (g.degree v))
    else get_block g M v with hblk
  set L : List (ℕ × (ℕ → ℕ → ℚ)) := (List.range g.num_vert).map blk with hL
  have hlen : L.length = g.num_vert := by simp [hL]
  have hget : ∀ (v : ℕ) (hv : v < g.num_vert),
      L.get ⟨v, by omega⟩ = blk v := by
    intro v hv
    simp [hL]
  have hwidths : ∀ v, v < g.num_vert → (blk v).1 = g.degree v := by
    intro v hv
    rw [hblk]
    dsimp only
    by_cases hm : st.oracle_coin.getD v "" ≠ ""
    · rw [if_pos hm]
    · rw [if_neg hm]
      show (get_block g M v).1 = g.degree v
      simp only [get_block]
      have := hwidth v hv
      omega
  have hoff : ∀ v, v < g.num_vert →
      offsetsOf L v = ∑ u ∈ Finset.range v, g.degree u := by
    intro v hv
    rw [offsetsOf_eq_sum L v (by omega)]
    apply Finset.sum_congr rfl
    intro u hu
    have hun : u < g.num_vert := by
      have := Finset.mem_range.mp hu
      omega
    have : L.getD u (0, fun _ _ => 0) = blk u := by
      simp [hL, List.getD_eq_getElem?_getD, List.getElem?_map,
            List.getElem?_range hun]
    rw [this, hwidths u hun]
  have hcoin : get_coin coin_funcs g st = .ok (blockDiag L) := by
    unfold get_coin
    rw [hst]
    dsimp only
    rw [if_neg hne]
  refine ⟨blockDiag L, hcoin, ?_, ?_, hst⟩
  · intro v hv hmarked i j hi hj
    have hb := blockDiag_block L v i j (by omega)
    rw [hget v hv] at hb
    have hb' := hb (by rw [hwidths v hv]; exact hi) (by rw [hwidths v hv]; exact hj)
    rw [hoff v hv, ← hstart v hv] at hb'
    rw [hb', hblk]
    dsimp only
    rw [if_neg (by simpa using hmarked)]
    rfl
  · intro v hv hmarked i j hi hj
    have hb := blockDiag_block L v i j (by omega)
    rw [hget v hv] at hb
    have hb' := hb (by rw [hwidths v hv]; exact hi) (by rw [hwidths v hv]; exact hj)
    rw [hoff v hv, ← hstart v hv] at hb'
    rw [hb', hblk]
    dsimp only
    rw [if_pos hmarked]

/-- A concrete adapter following the base-`Graph` labeling: the path on 2
vertices, one arc per vertex, `arc_label(t, h) = t`. -/
def pathAdapter : GraphAdapter :=
  ⟨2, fun v => if v = 0 then [1] else [0], fun t _ => t⟩

/-- A concrete stored explicit coin matrix. -/
def oracleMatrix : ℕ → ℕ → ℚ := fun i j => 10 * i + j

/-- A configuration holding `oracleMatrix` as explicit coin, with vertex 1
marked with the `identity` oracle coin and vertex 0 unmarked. -/
def oracleState : CoinedState :=
  ⟨none, some (.matrix oracleMatrix), ["", "identity"], [1], none⟩

/-- Witness for claim C9: the concrete two-vertex path adapter with the
explicit coin `oracleMatrix` and oracle `["", "identity"]`. -/
theorem claim_C9_witness :
    ∃ R, get_coin coin_funcs_rat pathAdapter oracleState = .ok R ∧
      (∀ v, v < pathAdapter.num_vert → oracleState.oracle_coin.getD v "" = "" →
        ∀ i j, i < pathAdapter.degree v → j < pathAdapter.degree v →
          R (pathAdapter.arc_label v ((pathAdapter.neighbors v).headD 0) + i)
            (pathAdapter.arc_label v ((pathAdapter.neighbors v).headD 0) + j)
          = oracleMatrix
              (pathAdapter.arc_label v ((pathAdapter.neighbors v).headD 0) + i)
              (pathAdapter.arc_label v ((pathAdapter.neighbors v).headD 0) + j)) ∧
      (∀ v, v < pathAdapter.num_vert → oracleState.oracle_coin.getD v "" ≠ "" →
        ∀ i j, i < pathAdapter.degree v → j < pathAdapter.degree v →
          R (pathAdapter.arc_label v ((pathAdapter.neighbors v).headD 0) + i)
            (pathAdapter.arc_label v ((pathAdapter.neighbors v).headD 0) + j)
          = coin_funcs_rat (oracleState.oracle_coin.getD v "")
              (pathAdapter.degree v) i j) ∧
      oracleState.coin = some (.matrix oracleMatrix) :=
  claim_C9_explicit_coin_oracle_blocks coin_funcs_rat pathAdapter
    oracleMatrix oracleState rfl (by simp [oracleState]) (by decide) (by decide)

/-! ### Claim C10: `state` rejects position-coin entries -/

/-- The three shapes of an entry of `Coined.state(*args)` (coined.py lines
866-888): `(amplitude, arc_label)`, `(amplitude, (vertex, dst_vertex))`,
and the advertised but unimplemented `(amplitude, vertex, coin)`.  An
amplitude is a complex number modelled as a pair of rationals; the
dtype dispatch on `has_complex` (line 902) only selects the numpy dtype
and is immaterial here. -/
inductive StateEntry where
  | arcLabel (amp : ℚ × ℚ) (label : ℕ)
  | arcPair (amp : ℚ × ℚ) (pair : ℕ × ℕ)
  | posCoin (amp : ℚ × ℚ) (vertex coin : ℕ)

/-- Length of the Python tuple an entry stands for (`len(entry)`). -/
def StateEntry.len : StateEntry → ℕ
  | .arcLabel _ _ => 2
  | .arcPair _ _ => 2
  | .posCoin _ _ _ => 3

/-- Embeds the `for entry in args` loop of `Coined.state` (coined.py lines
906-917): a three-element entry raises `NotImplementedError`; a
two-element entry with an iterable second component writes the amplitude
at `arc_label(entry[1][0], entry[1][1])`, otherwise at the given arc
label.  Later entries overwrite earlier ones. -/
def state_loop (num_vert : ℕ) :
    List StateEntry → (ℕ → ℚ × ℚ) → Except String (ℕ → ℚ × ℚ)
  | [], acc => .ok acc
  | e :: rest, acc =>
      match e with
      | .posCoin _ _ _ => .error "position-coin notation not implemented"
      | .arcPair amp (head, tail) =>
          state_loop num_vert rest
            (fun i => if i = Cycle.arc_label num_vert head tail then amp
                      else acc i)
      | .arcLabel amp label =>
          state_loop num_vert rest
            (fun i => if i = label then amp else acc i)

/-- Embeds `Coined.state` (coined.py lines 856-919) on the cycle.  The
final `self._normalize(state)` belongs to the base class (not under
`src/`); modelled from the spec (section 4.4): the result is normalized
by dividing by its L2 norm, and construction fails with `EmptyStateError`
if the resulting norm is zero.  The norm is irrational in general, so the
successful return value is modelled as the pre-normalization amplitude
vector paired with its squared norm, which together determine the
normalized state; the zero-norm failure is checked exactly (the L2 norm
vanishes iff the squared norm does).  The `NotImplementedError` is raised
inside the loop, before normalization. -/
def Coined_state (num_vert : ℕ) (args : List StateEntry) :
    Except String ((ℕ → ℚ × ℚ) × ℚ) :=
  match state_loop num_vert args (fun _ => (0, 0)) with
  | .error e => .error e
  | .ok v =>
      let nsq := ∑ l ∈ Finset.range (Cycle.number_of_arcs num_vert),
        elementwise_probability (v l)
      if nsq = 0 then .error "EmptyStateError" else .ok (v, nsq)

lemma state_loop_error_of_len3 (num_vert : ℕ) (args : List StateEntry)
    (h : ∃ e ∈ args, e.len = 3) :
    ∀ acc, state_loop num_vert args acc
      = .error "position-coin notation not implemented" := by
  induction args with
  | nil =>
      exact absurd h (by simp)
  | cons e rest ih =>
      intro acc
      obtain ⟨x, hx, hlen⟩ := h
      cases e with
      | posCoin a v c => rfl
      | arcLabel a l =>
          have hrest : ∃ y ∈ rest, y.len = 3 := by
            rcases List.mem_cons.mp hx with h1 | h1
            · subst h1
              exact absurd hlen (by simp [StateEntry.len])
            · exact ⟨x, h1, hlen⟩
          exact ih hrest _
      | arcPair a p =>
          obtain ⟨ph, pt⟩ := p
          have hrest : ∃ y ∈ rest, y.len = 3 := by
            rcases List.mem_cons.mp hx with h1 | h1
            · subst h1
              exact absurd hlen (by simp [StateEntry.len])
            · exact ⟨x, h1, hlen⟩
          exact ih hrest _

lemma state_loop_ok_of_len2 (num_vert : ℕ) (args : List StateEntry)
    (h : ∀ e ∈ args, e.len = 2) :
    ∀ acc, ∃ v, state_loop num_vert args acc = .ok v := by
  induction args with
  | nil =>
      intro acc
      exact ⟨acc, rfl⟩
  | cons e rest ih =>
      intro acc
      have hrest : ∀ y ∈ rest, StateEntry.len y = 2 :=
        fun y hy => h y (List.mem_cons_of_mem e hy)
      cases e with
      | posCoin a v c =>
          exact absurd (h _ (List.mem_cons_self _ _)) (by simp [StateEntry.len])
      | arcLabel a l => exact ih hrest _
      | arcPair a p =>
          obtain ⟨ph, pt⟩ := p
          exact ih hrest _

/-- Claim C10: a `state(*args)` call in which some entry has three
elements (the advertised position-coin notation) raises
`NotImplementedError` and returns no state vector; a call whose entries
all have two elements (amplitude with an arc label or with a
`(tail, head)` pair) is accepted into the entry loop and either produces
the state (when the accumulated squared norm is nonzero) or fails with
the spec's `EmptyStateError` (when it is zero) — never with
`NotImplementedError`. -/
theorem claim_C10_state_position_coin_not_implemented (num_vert : ℕ)
    (args : List StateEntry) :
    ((∃ e ∈ args, e.len = 3) →
      Coined_state num_vert args
        = .error "position-coin notation not implemented") ∧
    ((∀ e ∈ args, e.len = 2) →
      ∃ v, state_loop num_vert args (fun _ => (0, 0)) = .ok v ∧
        Coined_state num_vert args =
          (if (∑ l ∈ Finset.range (Cycle.number_of_arcs num_vert),
                elementwise_probability (v l)) = 0
           then .error "EmptyStateError"
           else .ok (v, ∑ l ∈ Finset.range (Cycle.number_of_arcs num_vert),
                elementwise_probability (v l)))) := by
  constructor
  · intro h
    unfold Coined_state
    rw [state_loop_error_of_len3 num_vert args h]
  · intro h
    obtain ⟨v, hv⟩ := state_loop_ok_of_len2 num_vert args h (fun _ => (0, 0))
    refine ⟨v, hv, ?_⟩
    unfold Coined_state
    rw [hv]

/-- Witness for claim C10: a concrete call mixing an accepted arc-label
entry with a position-coin entry errors out with `NotImplementedError`; a
concrete all-two-element call is accepted by the loop; and a concrete
all-two-element call whose single amplitude is zero fails with
`EmptyStateError`, while one with amplitude 1 succeeds. -/
theorem claim_C10_witness :
    (Coined_state 10 [.arcLabel (1, 0) 0, .posCoin (1, 0) 0 0]
      = .error "position-coin notation not implemented") ∧
    (∃ v, state_loop 10 [.arcLabel (1, 0) 0] (fun _ => (0, 0)) = .ok v ∧
      Coined_state 10 [.arcLabel (1, 0) 0] =
        (if (∑ l ∈ Finset.range (Cycle.number_of_arcs 10),
              elementwise_probability (v l)) = 0
         then .error "EmptyStateError"
         else .ok (v, ∑ l ∈ Finset.range (Cycle.number_of_arcs 10),
              elementwise_probability (v l)))) ∧
    Coined_state 10 [.arcLabel (0, 0) 5] = .error "EmptyStateError" ∧
    Coined_state 10 [.arcLabel (1, 0) 5]
      = .ok (fun i => if i = 5 then ((1 : ℚ), (0 : ℚ)) else (0, 0), 1) := by
  refine ⟨(claim_C10_state_position_coin_not_implemented 10
            [.arcLabel (1, 0) 0, .posCoin (1, 0) 0 0]).1
            ⟨.posCoin (1, 0) 0 0, by simp, rfl⟩,
          (claim_C10_state_position_coin_not_implemented 10
            [.arcLabel (1, 0) 0]).2
            (by
              intro e he
              rw [List.mem_singleton] at he
              rw [he]
              rfl), ?_, ?_⟩
  · unfold Coined_state
    rw [show state_loop 10 [.arcLabel (0, 0) 5] (fun _ => (0, 0))
          = .ok (fun i => if i = 5 then ((0 : ℚ), (0 : ℚ)) else (0, 0))
        from rfl]
    dsimp only
    rw [if_pos]
    apply Finset.sum_eq_zero
    intro l _
    unfold elementwise_probability
    by_cases h : l = 5 <;> simp [h]
  · unfold Coined_state
    rw [show state_loop 10 [.arcLabel (1, 0) 5] (fun _ => (0, 0))
          = .ok (fun i => if i = 5 then ((1 : ℚ), (0 : ℚ)) else (0, 0))
        from rfl]
    dsimp only
    have hsum : (∑ l ∈ Finset.range (Cycle.number_of_arcs 10),
        elementwise_probability
          ((fun i => if i = 5 then ((1 : ℚ), (0 : ℚ)) else (0, 0)) l)) = 1 := by
      rw [Finset.sum_eq_single 5]
      · norm_num [elementwise_probability]
      · intro k _ hk
        simp [elementwise_probability, hk]
      · intro hmem
        exact absurd (Finset.mem_range.mpr (by norm_num [Cycle.number_of_arcs]))
          hmem
    rw [hsum, if_neg (by norm_num)]

/-! ### Claim C8: dict-form coin resolution -/

lemma coin_to_valid_name_of_mem {nm : String} (dc : String)
    (h : nm ∈ valid_coin_names) : coin_to_valid_name dc nm = .ok nm := by
  fin_cases h <;> rfl

lemma valid_coin_name_ne_empty {nm : String} (h : nm ∈ valid_coin_names) :
    nm ≠ "" := by
  fin_cases h <;> simp

/-- The dict loop of `_coin_to_list` with the (always succeeding, under
valid keys) name validation stripped; equal to `coin_dict_fold` when every
key is a catalogue name. -/
def pure_dict_fold : List (String × List ℕ) → List String → List String
  | [], acc => acc
  | p :: rest, acc => pure_dict_fold rest (apply_dict_entry p.1 p.2 acc)

lemma coin_dict_fold_eq_pure {dc : String} {d : List (String × List ℕ)}
    (hkeys : ∀ p ∈ d, p.1 ∈ valid_coin_names) :
    ∀ acc, coin_dict_fold dc d acc = .ok (pure_dict_fold d acc) := by
  induction d with
  | nil => intro acc; rfl
  | cons p rest ih =>
      intro acc
      show (match coin_to_valid_name dc p.1 with
            | Except.error e => Except.error e
            | Except.ok nm =>
                coin_dict_fold dc rest (apply_dict_entry nm p.2 acc))
          = Except.ok (pure_dict_fold (p :: rest) acc)
      rw [coin_to_valid_name_of_mem dc (hkeys p (List.mem_cons_self p rest))]
      exact ih (fun q hq => hkeys q (List.mem_cons_of_mem p hq)) _

lemma foldl_set_length (nm : String) :
    ∀ (verts : List ℕ) (acc : List String),
      (verts.foldl (fun a v => a.set v nm) acc).length = acc.length := by
  intro verts
  induction verts with
  | nil => intro acc; rfl
  | cons u rest ih =>
      intro acc
      show (rest.foldl (fun a v => a.set v nm) (acc.set u nm)).length = _
      rw [ih (acc.set u nm), List.length_set]

lemma apply_dict_entry_length (nm : String) (verts : List ℕ)
    (acc : List String) :
    (apply_dict_entry nm verts acc).length = acc.length := by
  unfold apply_dict_entry
  by_cases hv : verts = []
  · rw [if_pos hv, List.length_map]
  · rw [if_neg hv, foldl_set_length]

lemma pure_dict_fold_length (d : List (String × List ℕ)) :
    ∀ acc, (pure_dict_fold d acc).length = acc.length := by
  induction d with
  | nil => intro acc; rfl
  | cons p rest ih =>
      intro acc
      show (pure_dict_fold rest (apply_dict_entry p.1 p.2 acc)).length = _
      rw [ih, apply_dict_entry_length]

lemma foldl_set_getD_notmem (nm : String) (v : ℕ) :
    ∀ (verts : List ℕ) (acc : List String), v ∉ verts →
      (verts.foldl (fun a u => a.set u nm) acc).getD v "" = acc.getD v "" := by
  intro verts
  induction verts with
  | nil => intro acc _; rfl
  | cons u rest ih =>
      intro acc hv
      show (rest.foldl (fun a u => a.set u nm) (acc.set u nm)).getD v "" = _
      rw [ih (acc.set u nm) (fun h => hv (List.mem_cons_of_mem u h)),
          List.getD_eq_getElem?_getD, List.getD_eq_getElem?_getD,
          List.getElem?_set_ne
            (fun h => hv (by rw [← h]; exact List.mem_cons_self u rest))]

lemma foldl_set_getD_mem (nm : String) (v : ℕ) :
    ∀ (verts : List ℕ) (acc : List String), v ∈ verts → v < acc.length →
      (verts.foldl (fun a u => a.set u nm) acc).getD v "" = nm := by
  intro verts
  induction verts with
  | nil => intro acc hv; exact absurd hv (by simp)
  | cons u rest ih =>
      intro acc hv hlt
      show (rest.foldl (fun a u => a.set u nm) (acc.set u nm)).getD v "" = nm
      by_cases hr : v ∈ rest
      · exact ih (acc.set u nm) hr (by rw [List.length_set]; exact hlt)
      · have hu : v = u := by
          rcases List.mem_cons.mp hv with h | h
          · exact h
          · exact absurd h hr
        subst hu
        rw [foldl_set_getD_notmem nm v rest (acc.set v nm) hr,
            List.getD_eq_getElem?_getD, List.getElem?_set_self hlt]
        rfl

lemma apply_dict_entry_getD_notmem (nm : String) (verts : List ℕ)
    (acc : List String) (v : ℕ) (hne : verts ≠ []) (hv : v ∉ verts) :
    (apply_dict_entry nm verts acc).getD v "" = acc.getD v "" := by
  unfold apply_dict_entry
  rw [if_neg hne]
  exact foldl_set_getD_notmem nm v verts acc hv

lemma apply_dict_entry_getD_mem (nm : String) (verts : List ℕ)
    (acc : List String) (v : ℕ) (hv : v ∈ verts) (hlt : v < acc.length) :
    (apply_dict_entry nm verts acc).getD v "" = nm := by
  unfold apply_dict_entry
  rw [if_neg (fun h => by rw [h] at hv; exact absurd hv (by simp))]
  exact foldl_set_getD_mem nm v verts acc hv hlt

lemma apply_dict_entry_getD_fill_kept (nm : String) (acc : List String)
    (v : ℕ) (hv : acc.getD v "" ≠ "") :
    (apply_dict_entry nm [] acc).getD v "" = acc.getD v "" := by
  unfold apply_dict_entry
  rw [if_pos rfl, List.getD_eq_getElem?_getD, List.getElem?_map,
      List.getD_eq_getElem?_getD]
  rw [List.getD_eq_getElem?_getD] at hv
  cases hcell : acc[v]? with
  | none => rw [hcell] at hv; exact absurd rfl hv
  | some s =>
      rw [hcell] at hv
      have hs : s ≠ "" := hv
      show (if s = "" then nm else s) = s
      rw [if_neg hs]

lemma apply_dict_entry_getD_fill_empty (nm : String) (acc : List String)
    (v : ℕ) (hlt : v < acc.length) (hv : acc.getD v "" = "") :
    (apply_dict_entry nm [] acc).getD v "" = nm := by
  unfold apply_dict_entry
  rw [if_pos rfl, List.getD_eq_getElem?_getD, List.getElem?_map]
  rw [List.getD_eq_getElem?_getD] at hv
  cases hcell : acc[v]? with
  | none =>
      rw [List.getElem?_eq_none_iff] at hcell
      omega
  | some s =>
      rw [hcell] at hv
      have hs : s = "" := hv
      subst hs
      rfl

lemma pure_dict_fold_getD_unlisted_kept (v : ℕ) :
    ∀ (d : List (String × List ℕ)),
      (∀ p ∈ d, v ∉ p.2) →
      ∀ acc, acc.getD v "" ≠ "" →
        (pure_dict_fold d acc).getD v "" = acc.getD v "" := by
  intro d
  induction d with
  | nil => intro _ acc _; rfl
  | cons p rest ih =>
      intro hnv acc hacc
      show (pure_dict_fold rest (apply_dict_entry p.1 p.2 acc)).getD v "" = _
      have hnv' : ∀ q ∈ rest, v ∉ q.2 :=
        fun q hq => hnv q (List.mem_cons_of_mem p hq)
      by_cases hp : p.2 = []
      · have h1 : (apply_dict_entry p.1 p.2 acc).getD v "" = acc.getD v "" := by
          rw [hp]
          exact apply_dict_entry_getD_fill_kept p.1 acc v hacc
        rw [ih hnv' _ (by rw [h1]; exact hacc), h1]
      · have h1 : (apply_dict_entry p.1 p.2 acc).getD v "" = acc.getD v "" :=
          apply_dict_entry_getD_notmem p.1 p.2 acc v hp
            (hnv p (List.mem_cons_self p rest))
        rw [ih hnv' _ (by rw [h1]; exact hacc), h1]

lemma pure_dict_fold_getD_listed (v : ℕ) :
    ∀ (d : List (String × List ℕ)) (q : String × List ℕ),
      (∀ p ∈ d, p.1 ∈ valid_coin_names) →
      d.Pairwise (fun p r => ∀ w, w ∈ p.2 → w ∉ r.2) →
      q ∈ d → v ∈ q.2 →
      ∀ acc, v < acc.length →
        (pure_dict_fold d acc).getD v "" = q.1 := by
  intro d
  induction d with
  | nil => intro q _ _ hq; exact absurd hq (by simp)
  | cons p rest ih =>
      intro q hkeys hdisj hq hv acc hlt
      rw [List.pairwise_cons] at hdisj
      obtain ⟨hhead, htail⟩ := hdisj
      show (pure_dict_fold rest (apply_dict_entry p.1 p.2 acc)).getD v "" = q.1
      rcases List.mem_cons.mp hq with hq1 | hq1
      · have h1 : (apply_dict_entry p.1 p.2 acc).getD v "" = q.1 := by
          rw [hq1] at hv ⊢
          exact apply_dict_entry_getD_mem p.1 p.2 acc v hv hlt
        have hrest_nv : ∀ r ∈ rest, v ∉ r.2 := by
          intro r hr
          rw [hq1] at hv
          exact hhead r hr v hv
        rw [pure_dict_fold_getD_unlisted_kept v rest hrest_nv _
              (by
                rw [h1]
                exact valid_coin_name_ne_empty
                  (by rw [hq1]; exact hkeys p (List.mem_cons_self p rest))),
            h1]
      · exact ih q (fun r hr => hkeys r (List.mem_cons_of_mem p hr)) htail hq1 hv
          _ (by rw [apply_dict_entry_length]; exact hlt)

lemma pure_dict_fold_getD_catchall (v : ℕ) :
    ∀ (d : List (String × List ℕ)) (e : String × List ℕ),
      (∀ p ∈ d, p.1 ∈ valid_coin_names) →
      (∀ p ∈ d, v ∉ p.2) →
      (d.filter (fun p => decide (p.2 = []))).length ≤ 1 →
      e ∈ d → e.2 = [] →
      ∀ acc, v < acc.length → acc.getD v "" = "" →
        (pure_dict_fold d acc).getD v "" = e.1 := by
  intro d
  induction d with
  | nil => intro e _ _ _ he; exact absurd he (by simp)
  | cons p rest ih =>
      intro e hkeys hnv hone he he2 acc hlt hacc
      show (pure_dict_fold rest (apply_dict_entry p.1 p.2 acc)).getD v "" = e.1
      have hnv' : ∀ q ∈ rest, v ∉ q.2 :=
        fun q hq => hnv q (List.mem_cons_of_mem p hq)
      by_cases hp : p.2 = []
      · rw [List.filter_cons_of_pos (by simp [hp]), List.length_cons] at hone
        have hrest_empty : ∀ r ∈ rest, r.2 ≠ [] := by
          intro r hr hre
          have hmem : r ∈ rest.filter (fun p => decide (p.2 = [])) :=
            List.mem_filter.mpr ⟨hr, by simp [hre]⟩
          have h0 : (rest.filter (fun p => decide (p.2 = []))).length = 0 := by
            omega
          rw [List.length_eq_zero] at h0
          rw [h0] at hmem
          exact absurd hmem (by simp)
        have hep : e = p := by
          rcases List.mem_cons.mp he with h | h
          · exact h
          · exact absurd he2 (hrest_empty e h)
        have h1 : (apply_dict_entry p.1 p.2 acc).getD v "" = p.1 := by
          rw [hp]
          exact apply_dict_entry_getD_fill_empty p.1 acc v hlt hacc
        rw [pure_dict_fold_getD_unlisted_kept v rest hnv' _
              (by
                rw [h1]
                exact valid_coin_name_ne_empty
                  (hkeys p (List.mem_cons_self p rest))),
            h1, hep]
      · have h1 : (apply_dict_entry p.1 p.2 acc).getD v "" = acc.getD v "" :=
          apply_dict_entry_getD_notmem p.1 p.2 acc v hp
            (hnv p (List.mem_cons_self p rest))
        have he' : e ∈ rest := by
          rcases List.mem_cons.mp he with h | h
          · rw [h] at he2
            exact absurd he2 hp
          · exact h
        rw [List.filter_cons_of_neg (by simp [hp])] at hone
        exact ih e (fun r hr => hkeys r (List.mem_cons_of_mem p hr)) hnv' hone
          he' he2 _ (by rw [apply_dict_entry_length]; exact hlt)
          (by rw [h1]; exact hacc)

lemma pure_dict_fold_getD_unassigned (v : ℕ) :
    ∀ (d : List (String × List ℕ)),
      (∀ p ∈ d, v ∉ p.2) →
      (∀ p ∈ d, p.2 ≠ []) →
      ∀ acc, acc.getD v "" = "" →
        (pure_dict_fold d acc).getD v "" = "" := by
  intro d
  induction d with
  | nil => intro _ _ acc hacc; exact hacc
  | cons p rest ih =>
      intro hnv hne acc hacc
      show (pure_dict_fold rest (apply_dict_entry p.1 p.2 acc)).getD v "" = ""
      have h1 : (apply_dict_entry p.1 p.2 acc).getD v "" = acc.getD v "" :=
        apply_dict_entry_getD_notmem p.1 p.2 acc v
          (hne p (List.mem_cons_self p rest)) (hnv p (List.mem_cons_self p rest))
      exact ih (fun q hq => hnv q (List.mem_cons_of_mem p hq))
        (fun q hq => hne q (List.mem_cons_of_mem p hq)) _
        (by rw [h1]; exact hacc)

lemma unique_container (v : ℕ) :
    ∀ (d : List (String × List ℕ)),
      d.Pairwise (fun p r => ∀ w, w ∈ p.2 → w ∉ r.2) →
      ∀ p q, p ∈ d → q ∈ d → v ∈ p.2 → v ∈ q.2 → p = q := by
  intro d
  induction d with
  | nil => intro _ p q hp; exact absurd hp (by simp)
  | cons a t ih =>
      intro hdisj p q hp hq hvp hvq
      rw [List.pairwise_cons] at hdisj
      obtain ⟨hhead, htail⟩ := hdisj
      rcases List.mem_cons.mp hp with hp1 | hp1 <;>
        rcases List.mem_cons.mp hq with hq1 | hq1
      · rw [hp1, hq1]
      · rw [hp1] at hvp
        exact absurd hvq (hhead q hq1 v hvp)
      · rw [hq1] at hvq
        exact absurd hvp (hhead p hp1 v hvq)
      · exact ih htail p q hp1 hq1 hvp hvq

lemma unique_empty :
    ∀ (d : List (String × List ℕ)),
      (d.filter (fun p => decide (p.2 = []))).length ≤ 1 →
      ∀ p q, p ∈ d → q ∈ d → p.2 = [] → q.2 = [] → p = q := by
  intro d
  induction d with
  | nil => intro _ p q hp; exact absurd hp (by simp)
  | cons a t ih =>
      intro hone p q hp hq hp2 hq2
      by_cases ha : a.2 = []
      · rw [List.filter_cons_of_pos (by simp [ha]), List.length_cons] at hone
        have ht : ∀ r ∈ t, r.2 ≠ [] := by
          intro r hr hre
          have hmem : r ∈ t.filter (fun p => decide (p.2 = [])) :=
            List.mem_filter.mpr ⟨hr, by simp [hre]⟩
          have h0 : (t.filter (fun p => decide (p.2 = []))).length = 0 := by
            omega
          rw [List.length_eq_zero] at h0
          rw [h0] at hmem
          exact absurd hmem (by simp)
        have hpa : p = a := by
          rcases List.mem_cons.mp hp with h | h
          · exact h
          · exact absurd hp2 (ht p h)
        have hqa : q = a := by
          rcases List.mem_cons.mp hq with h | h
          · exact h
          · exact absurd hq2 (ht q h)
        rw [hpa, hqa]
      · rw [List.filter_cons_of_neg (by simp [ha])] at hone
        have hp' : p ∈ t := by
          rcases List.mem_cons.mp hp with h | h
          · rw [h] at hp2
            exact absurd hp2 ha
          · exact h
        have hq' : q ∈ t := by
          rcases List.mem_cons.mp hq with h | h
          · rw [h] at hq2
            exact absurd hq2 ha
          · exact h
        exact ih hone p q hp' hq' hp2 hq2

/-- Canonical coin assignment, written from the spec's words (section 4.3):
a vertex listed under a key gets that key's coin type; a vertex listed
under no key gets the type of the (at most one meaningful) empty-subset
key when present, and stays unassigned (`""`) otherwise.  This definition
is order-insensitive under the disjointness and at-most-one-empty-key
hypotheses, and is compared against the source fold. -/
def coinAssignSpec (d : List (String × List ℕ)) (v : ℕ) : String :=
  match d.find? (fun p => decide (v ∈ p.2)) with
  | some p => p.1
  | none =>
      match d.find? (fun p => decide (p.2 = [])) with
      | some p => p.1
      | none => ""

lemma replicate_getD_empty (n v : ℕ) :
    (List.replicate n ("" : String)).getD v "" = "" := by
  by_cases h : v < n
  · simp [List.getD_eq_getElem?_getD, List.getElem?_replicate, h]
  · simp [List.getD_eq_getElem?_getD, List.getElem?_replicate, h]

lemma dict_fold_pointwise (n : ℕ) (d : List (String × List ℕ))
    (hkeys : ∀ p ∈ d, p.1 ∈ valid_coin_names)
    (hdisj : d.Pairwise (fun p r => ∀ w, w ∈ p.2 → w ∉ r.2))
    (hone : (d.filter (fun p => decide (p.2 = []))).length ≤ 1) :
    ∀ v, v < n →
      (pure_dict_fold d (List.replicate n "")).getD v "" = coinAssignSpec d v := by
  intro v hv
  unfold coinAssignSpec
  cases hfind : d.find? (fun p => decide (v ∈ p.2)) with
  | some q =>
      have hq2 : v ∈ q.2 := by simpa using List.find?_some hfind
      have hqd : q ∈ d := List.mem_of_find?_eq_some hfind
      exact pure_dict_fold_getD_listed v d q hkeys hdisj hqd hq2 _
        (by rw [List.length_replicate]; exact hv)
  | none =>
      have hnv : ∀ p ∈ d, v ∉ p.2 := by
        intro p hp hvp
        have h := List.find?_eq_none.mp hfind p hp
        simp at h
        exact h hvp
      cases hfind2 : d.find? (fun p => decide (p.2 = [])) with
      | some e =>
          have he2 : e.2 = [] := by simpa using List.find?_some hfind2
          have hed : e ∈ d := List.mem_of_find?_eq_some hfind2
          exact pure_dict_fold_getD_catchall v d e hkeys hnv hone hed he2 _
            (by rw [List.length_replicate]; exact hv) (replicate_getD_empty n v)
      | none =>
          have hne : ∀ p ∈ d, p.2 ≠ [] := by
            intro p hp
            have h := List.find?_eq_none.mp hfind2 p hp
            simpa using h
          exact pure_dict_fold_getD_unassigned v d hnv hne _
            (replicate_getD_empty n v)

lemma coinAssignSpec_perm {d d' : List (String × List ℕ)}
    (hdisj : d.Pairwise (fun p r => ∀ w, w ∈ p.2 → w ∉ r.2))
    (hone : (d.filter (fun p => decide (p.2 = []))).length ≤ 1)
    (hperm : d.Perm d') (v : ℕ) :
    coinAssignSpec d' v = coinAssignSpec d v := by
  unfold coinAssignSpec
  cases hf : d.find? (fun p => decide (v ∈ p.2)) with
  | some q =>
      have hq2 : v ∈ q.2 := by simpa using List.find?_some hf
      have hqd : q ∈ d := List.mem_of_find?_eq_some hf
      cases hf' : d'.find? (fun p => decide (v ∈ p.2)) with
      | some q' =>
          have hq'2 : v ∈ q'.2 := by simpa using List.find?_some hf'
          have hq'd : q' ∈ d := hperm.symm.subset (List.mem_of_find?_eq_some hf')
          rw [unique_container v d hdisj q' q hq'd hqd hq'2 hq2]
      | none =>
          have h := List.find?_eq_none.mp hf' q (hperm.subset hqd)
          simp at h
          exact absurd hq2 h
  | none =>
      have hnone' : d'.find? (fun p => decide (v ∈ p.2)) = none := by
        rw [List.find?_eq_none]
        intro x hx
        exact List.find?_eq_none.mp hf x (hperm.symm.subset hx)
      rw [hnone']
      cases hf2 : d.find? (fun p => decide (p.2 = [])) with
      | some e =>
          have he2 : e.2 = [] := by simpa using List.find?_some hf2
          have hed : e ∈ d := List.mem_of_find?_eq_some hf2
          cases hf2' : d'.find? (fun p => decide (p.2 = [])) with
          | some e' =>
              have he'2 : e'.2 = [] := by simpa using List.find?_some hf2'
              have he'd : e' ∈ d :=
                hperm.symm.subset (List.mem_of_find?_eq_some hf2')
              rw [unique_empty d hone e' e he'd hed he'2 he2]
          | none =>
              have h := List.find?_eq_none.mp hf2' e (hperm.subset hed)
              simp [he2] at h
      | none =>
          have h : d'.find? (fun p => decide (p.2 = [])) = none := by
            rw [List.find?_eq_none]
            intro x hx
            exact List.find?_eq_none.mp hf2 x (hperm.symm.subset hx)
          rw [h]

lemma contains_empty_iff (l : List String) : l.contains "" = true ↔ "" ∈ l := by
  simp [List.contains_eq_any_beq, List.any_eq_true]

lemma coin_to_list_dict_eval {n : ℕ} {d : List (String × List ℕ)}
    (hkeys : ∀ p ∈ d, p.1 ∈ valid_coin_names) :
    coin_to_list "hadamard" n (.dict d) =
      .ok (pure_dict_fold d (List.replicate n ""),
           (pure_dict_fold d (List.replicate n "")).contains "") := by
  show (match coin_dict_fold "hadamard" d (List.replicate n "") with
        | Except.error e => Except.error e
        | Except.ok cl => Except.ok (cl, cl.contains "")) = _
  rw [coin_dict_fold_eq_pure hkeys]

/-- Claim C8: resolving a mapping-form coin specification (with catalogue
keys, pairwise-disjoint vertex lists over `[0, n)` and at most one
empty-subset key) assigns every listed vertex its key's coin type and
every unlisted vertex the empty-subset key's type when one exists; the
`undefined_coin` flag is raised exactly when some vertex remains
unassigned; and the resolved list is the same for every iteration order of
the dictionary. -/
theorem claim_C8_dict_coin_resolution (n : ℕ) (d : List (String × List ℕ))
    (hkeys : ∀ p ∈ d, p.1 ∈ valid_coin_names)
    (hdisj : d.Pairwise (fun p r => ∀ w, w ∈ p.2 → w ∉ r.2))
    (hone : (d.filter (fun p => decide (p.2 = []))).length ≤ 1)
    (hrange : ∀ p ∈ d, ∀ w ∈ p.2, w < n) :
    ∃ cl undef, coin_to_list "hadamard" n (.dict d) = .ok (cl, undef) ∧
      cl.length = n ∧
      (∀ v, v < n → cl.getD v "" = coinAssignSpec d v) ∧
      (undef = true ↔ ∃ v, v < n ∧ coinAssignSpec d v = "") ∧
      (∀ d', d.Perm d' →
        coin_to_list "hadamard" n (.dict d') = .ok (cl, undef)) := by
  have hsymm : Symmetric
      (fun (p r : String × List ℕ) => ∀ w, w ∈ p.2 → w ∉ r.2) :=
    fun p r h w hwq hwp => h w hwp hwq
  refine ⟨pure_dict_fold d (List.replicate n ""),
          (pure_dict_fold d (List.replicate n "")).contains "",
          coin_to_list_dict_eval hkeys, ?_, ?_, ?_, ?_⟩
  · rw [pure_dict_fold_length, List.length_replicate]
  · exact dict_fold_pointwise n d hkeys hdisj hone
  · set cl := pure_dict_fold d (List.replicate n "") with hcl
    have hlen : cl.length = n := by
      rw [hcl, pure_dict_fold_length, List.length_replicate]
    constructor
    · intro hcon
      obtain ⟨i, hi, hval⟩ :=
        List.mem_iff_getElem.mp ((contains_empty_iff cl).mp hcon)
      have hin : i < n := by omega
      refine ⟨i, hin, ?_⟩
      rw [← dict_fold_pointwise n d hkeys hdisj hone i hin, ← hcl,
          List.getD_eq_getElem cl "" hi]
      exact hval
    · rintro ⟨v, hv, hspec⟩
      apply (contains_empty_iff cl).mpr
      apply List.mem_iff_getElem.mpr
      refine ⟨v, by omega, ?_⟩
      rw [← List.getD_eq_getElem cl "" (by omega),
          hcl, dict_fold_pointwise n d hkeys hdisj hone v hv]
      exact hspec
  · intro d' hperm
    have hkeys' : ∀ p ∈ d', p.1 ∈ valid_coin_names :=
      fun p hp => hkeys p (hperm.symm.subset hp)
    have hdisj' : d'.Pairwise (fun p r => ∀ w, w ∈ p.2 → w ∉ r.2) :=
      (hperm.pairwise_iff @hsymm).mp hdisj
    have hone' : (d'.filter (fun p => decide (p.2 = []))).length ≤ 1 := by
      rw [← (hperm.filter (fun p => decide (p.2 = []))).length_eq]
      exact hone
    have hext : pure_dict_fold d' (List.replicate n "")
        = pure_dict_fold d (List.replicate n "") := by
      apply List.ext_getElem
      · rw [pure_dict_fold_length, pure_dict_fold_length]
      · intro i h1 h2
        have hi : i < n := by
          rw [pure_dict_fold_length, List.length_replicate] at h1
          exact h1
        rw [← List.getD_eq_getElem _ "" h1, ← List.getD_eq_getElem _ "" h2,
            dict_fold_pointwise n d' hkeys' hdisj' hone' i hi,
            dict_fold_pointwise n d hkeys hdisj hone i hi,
            coinAssignSpec_perm hdisj hone hperm i]
    rw [coin_to_list_dict_eval hkeys', hext]

/-- Witness for claim C8: a concrete dictionary on 4 vertices with a
non-empty `grover` group and an `identity` catch-all. -/
theorem claim_C8_witness :
    ∃ cl undef,
      coin_to_list "hadamard" 4
        (.dict [("grover", [0, 2]), ("identity", [])]) = .ok (cl, undef) ∧
      cl.length = 4 ∧
      (∀ v, v < 4 → cl.getD v ""
        = coinAssignSpec [("grover", [0, 2]), ("identity", [])] v) ∧
      (undef = true ↔ ∃ v, v < 4 ∧
        coinAssignSpec [("grover", [0, 2]), ("identity", [])] v = "") ∧
      (∀ d', List.Perm [("grover", [0, 2]), ("identity", [])] d' →
        coin_to_list "hadamard" 4 (.dict d') = .ok (cl, undef)) :=
  claim_C8_dict_coin_resolution 4 [("grover", [0, 2]), ("identity", [])]
    (by decide) (by decide) (by decide) (by decide)

end Hiperwalk
